import Mathlib

/-!
Shallow embedding of the receipt-scanner text-extraction engine
(`parseReceiptText` and `escapeCsv` from `script.js`).

The JavaScript regular expressions are embedded as explicit backtracking
matchers: a matcher maps an input character list to the list of all
candidate `(matched, rest)` splits in the engine's backtracking priority
order (greedy quantifiers longest-first, alternatives left-to-right), so
the head of the list is exactly the match a JS regex engine returns.
Searching (`String.prototype.match` without the `g` flag) scans start
positions left to right and returns the first position with a candidate.

`parseFloat` is modelled in two exact stages, following ECMA-262
string-to-Number conversion: the exact decimal value of the matched
amount (`centsOf`, in integer cents — the shape is `digits.dd` after
comma-stripping), then correct rounding to an IEEE-754 binary64 Number
with roundTiesToEven and overflow to Infinity (`jsDouble`).  A finite
double arising here is a dyadic `m * 2^e` with `e ≥ -59`, so it is
stored exactly as the natural number `value * 2^1200` and the source's
double comparisons `v > maxVal` / `maxVal > 0` become exact natural
comparisons of those keys (`JsNum.ltB`).  The `alphaRatio < 0.3` test
is modelled by the exact comparison `10 * alphaCount < 3 * length`,
which agrees with the double comparison for every line shorter than
`2^45` characters.
-/

namespace Receipt

/-- JS `\s` (whitespace), restricted to its ASCII members. -/
def isSpaceC (c : Char) : Bool :=
  c = ' ' || c = '\t' || c = '\n' || c = '\r' || c = '\x0b' || c = '\x0c'

/-- JS `\w`: letters, digits, underscore. -/
def isWordC (c : Char) : Bool :=
  c.isAlpha || c.isDigit || c = '_'

/-- Character range test by code point. -/
def betweenC (lo hi c : Char) : Bool :=
  decide (lo.toNat ≤ c.toNat ∧ c.toNat ≤ hi.toNat)

/-- Does the list start with a line feed? -/
def headIsLF : List Char → Bool
  | '\n' :: _ => true
  | _ => false

/-- `text.split(/\r?\n/)`: split on `\n`, also consuming a `\r` directly
before it; a lone `\r` stays in its line. -/
def splitLinesAux : List Char → List Char → List (List Char)
  | [], acc => [acc.reverse]
  | c :: rest, acc =>
    if c = '\n' then acc.reverse :: splitLinesAux rest []
    else if c = '\r' && headIsLF rest then
      match rest with
      | _ :: rest2 => acc.reverse :: splitLinesAux rest2 []
      | [] => [(c :: acc).reverse]
    else splitLinesAux rest (c :: acc)

/-- `String.prototype.trim`: drop whitespace from both ends. -/
def trimC (l : List Char) : List Char :=
  ((l.dropWhile isSpaceC).reverse.dropWhile isSpaceC).reverse

/-- `text.split(/\r?\n/).map(l => l.trim()).filter(l => l.length > 0)`. -/
def linesOf (text : List Char) : List (List Char) :=
  ((splitLinesAux text []).map trimC).filter (fun l => decide (0 < l.length))

/-- The join separator `" \\n "` from the source: in a JS string literal
`\\` is a single backslash, so this is space, backslash, letter n, space. -/
def joinSep : List Char := [' ', '\\', 'n', ' ']

/-- `lines.join(" \\n ")`. -/
def fullTextOf (text : List Char) : List Char :=
  List.intercalate joinSep (linesOf text)

/-- A backtracking matcher: all candidate `(matched, rest)` splits of the
input, in the JS engine's backtracking priority order. -/
def Matcher : Type := List Char → List (List Char × List Char)

/-- Match one character satisfying `p`. -/
def mchar (p : Char → Bool) : Matcher := fun s =>
  match s with
  | c :: rest => if p c then [([c], rest)] else []
  | [] => []

/-- Case-sensitive literal. -/
def mlits (cs : List Char) : Matcher := fun s =>
  if cs.isPrefixOf s then [(cs, s.drop cs.length)] else []

/-- Case-insensitive literal (`cs` given in lower case); returns the
original-case text it consumed, as JS `match` does. -/
def mlitCI (cs : List Char) : Matcher := fun s =>
  if (s.take cs.length).map Char.toLower = cs then [(s.take cs.length, s.drop cs.length)]
  else []

/-- Sequencing: for each candidate of `a`, in order, all candidates of `b`
on the rest — exactly the backtracking order of regex concatenation. -/
def mseq (a b : Matcher) : Matcher := fun s =>
  (a s).flatMap fun p => (b p.2).map fun q => (p.1 ++ q.1, q.2)

/-- Alternation, left alternative preferred. -/
def malt (a b : Matcher) : Matcher := fun s => a s ++ b s

/-- Greedy `?`: try the present case first, then the empty match. -/
def mopt (a : Matcher) : Matcher := fun s => a s ++ [([], s)]

/-- Length of the maximal prefix of characters satisfying `p`. -/
def runLen (p : Char → Bool) : List Char → Nat
  | c :: rest => if p c then runLen p rest + 1 else 0
  | [] => 0

/-- `[hi, hi-1, ..., lo]` (empty when `hi < lo`). -/
def countsDesc (lo hi : Nat) : List Nat :=
  (List.range (hi + 1 - lo)).map (fun i => hi - i)

/-- Greedy `p*` over a single-character class: candidates longest-first. -/
def mstarC (p : Char → Bool) : Matcher := fun s =>
  (countsDesc 0 (runLen p s)).map (fun n => (s.take n, s.drop n))

/-- Greedy `p+` over a single-character class. -/
def mplusC (p : Char → Bool) : Matcher := fun s =>
  (countsDesc 1 (runLen p s)).map (fun n => (s.take n, s.drop n))

/-- Greedy `p{lo,hi}` over a single-character class. -/
def mrepC (p : Char → Bool) (lo hi : Nat) : Matcher := fun s =>
  (countsDesc lo (min hi (runLen p s))).map (fun n => (s.take n, s.drop n))

/-- Exactly `n` characters satisfying `p`. -/
def mcount (p : Char → Bool) (n : Nat) : Matcher := fun s =>
  if (s.take n).length = n && (s.take n).all p then [(s.take n, s.drop n)] else []

/-- Number of maximal leading `,ddd` groups (for `(?:,[0-9]{3})*`). -/
def chunkCount : List Char → Nat
  | ',' :: a :: b :: c :: rest =>
    if a.isDigit && b.isDigit && c.isDigit then chunkCount rest + 1 else 0
  | _ => 0

/-- Greedy `(?:,[0-9]{3})*`: `k` groups for `k` = max down to 0. -/
def mCommaGroups : Matcher := fun s =>
  (countsDesc 0 (chunkCount s)).map (fun k => (s.take (4 * k), s.drop (4 * k)))

/-- The amount shape `[0-9]{1,3}(?:,[0-9]{3})*(?:\.[0-9]{2})`. -/
def mAmountA : Matcher :=
  mseq (mrepC Char.isDigit 1 3)
    (mseq mCommaGroups (mseq (mchar (· = '.')) (mcount Char.isDigit 2)))

/-- The amount shape `[0-9]+\.[0-9]{2}`. -/
def mAmountB : Matcher :=
  mseq (mplusC Char.isDigit) (mseq (mchar (· = '.')) (mcount Char.isDigit 2))

/-- The full amount alternation used by all three total patterns. -/
def mAmount : Matcher := malt mAmountA mAmountB

/-- The currency marker `(?:\$|USD\s*\$?|EUR\s*€?|£|€)` (case-sensitive). -/
def mCurrencyTag : Matcher :=
  malt (mchar (· = '$'))
    (malt (mseq (mlits ['U','S','D']) (mseq (mstarC isSpaceC) (mopt (mchar (· = '$')))))
      (malt (mseq (mlits ['E','U','R']) (mseq (mstarC isSpaceC) (mopt (mchar (· = '€')))))
        (malt (mchar (· = '£')) (mchar (· = '€')))))

/-- The `currencyAmount` regex: currency marker, optional whitespace, amount. -/
def mCurrencyAmount : Matcher :=
  mseq mCurrencyTag (mseq (mstarC isSpaceC) mAmount)

/-- Leftmost match of `m` (JS `String.prototype.match` without `g`):
scan start positions left to right, first candidate at the first
successful position wins. -/
def searchFrom (m : Matcher) : List Char → Option (List Char)
  | [] => ((m []).head?).map Prod.fst
  | c :: rest =>
    match (m (c :: rest)).head? with
    | some p => some p.1
    | none => searchFrom m rest

/-- Does the remaining input start with an ASCII letter? -/
def headAlpha : List Char → Bool
  | c :: _ => c.isAlpha
  | [] => false

/-- The lookbehind `(?<![A-Za-z])`: the previous character, if any, is
not a letter. -/
def behindOkC : Option Char → Bool
  | some c => !c.isAlpha
  | none => true

/-- Candidates of the `amountOnly` regex at one start position: the
lookbehind gates the position, the lookahead `(?![A-Za-z])` filters
candidates (a failed lookahead backtracks into the amount). -/
def amountCandsAt (prev : Option Char) (s : List Char) : List (List Char × List Char) :=
  if behindOkC prev then (mAmount s).filter (fun p => !headAlpha p.2) else []

/-- Search for the `amountOnly` regex
`(?<![A-Za-z])(amount)(?![A-Za-z])`: scan positions left to right,
keeping track of the previous character for the lookbehind. -/
def searchAmountOnlyAux (prev : Option Char) : List Char → Option (List Char)
  | [] => ((amountCandsAt prev []).head?).map Prod.fst
  | c :: rest =>
    match (amountCandsAt prev (c :: rest)).head? with
    | some p => some p.1
    | none => searchAmountOnlyAux (some c) rest

/-- Year group `(20\d{2}|19\d{2})`. -/
def mYear : Matcher :=
  malt (mseq (mlits ['2','0']) (mcount Char.isDigit 2))
    (mseq (mlits ['1','9']) (mcount Char.isDigit 2))

/-- Separator class `[-\/.]`. -/
def mSep : Matcher := mchar (fun c => c = '-' || c = '/' || c = '.')

/-- Month group `(0?[1-9]|1[0-2])`. -/
def mMonthNum : Matcher :=
  malt (mseq (mopt (mchar (· = '0'))) (mchar (betweenC '1' '9')))
    (mseq (mchar (· = '1')) (mchar (betweenC '0' '2')))

/-- Day group `(0?[1-9]|[12]\d|3[01])`. -/
def mDayNum : Matcher :=
  malt (mseq (mopt (mchar (· = '0'))) (mchar (betweenC '1' '9')))
    (malt (mseq (mchar (fun c => c = '1' || c = '2')) (mchar Char.isDigit))
      (mseq (mchar (· = '3')) (mchar (fun c => c = '0' || c = '1'))))

/-- Month-name alternation `Jan|Feb|Mar|Apr|May|Jun|Jul|Aug|Sep|Sept|Oct|Nov|Dec`,
case-insensitive, in source order. -/
def mMonthName : Matcher :=
  malt (mlitCI ['j','a','n'])
    (malt (mlitCI ['f','e','b'])
      (malt (mlitCI ['m','a','r'])
        (malt (mlitCI ['a','p','r'])
          (malt (mlitCI ['m','a','y'])
            (malt (mlitCI ['j','u','n'])
              (malt (mlitCI ['j','u','l'])
                (malt (mlitCI ['a','u','g'])
                  (malt (mlitCI ['s','e','p'])
                    (malt (mlitCI ['s','e','p','t'])
                      (malt (mlitCI ['o','c','t'])
                        (malt (mlitCI ['n','o','v']) (mlitCI ['d','e','c']))))))))))))

/-- Date pattern 1: `(20\d{2}|19\d{2})[-\/.](0?[1-9]|1[0-2])[-\/.](0?[1-9]|[12]\d|3[01])`. -/
def mDate1 : Matcher := mseq mYear (mseq mSep (mseq mMonthNum (mseq mSep mDayNum)))

/-- Date pattern 2: `(0?[1-9]|1[0-2])[-\/.](0?[1-9]|[12]\d|3[01])[-\/.](20\d{2}|19\d{2})`. -/
def mDate2 : Matcher := mseq mMonthNum (mseq mSep (mseq mDayNum (mseq mSep mYear)))

/-- Date pattern 3: `(0?[1-9]|[12]\d|3[01])[-\/.](0?[1-9]|1[0-2])[-\/.](20\d{2}|19\d{2})`. -/
def mDate3 : Matcher := mseq mDayNum (mseq mSep (mseq mMonthNum (mseq mSep mYear)))

/-- Date pattern 4: `(0?[1-9]|[12]\d|3[01])\s+(Jan|…|Dec)\w*\s+(20\d{2}|19\d{2})`, `/i`. -/
def mDate4 : Matcher :=
  mseq mDayNum
    (mseq (mplusC isSpaceC)
      (mseq mMonthName (mseq (mstarC isWordC) (mseq (mplusC isSpaceC) mYear))))

/-- The date loop: try the four patterns in order on the joined text,
first match wins; `""` when none matches. -/
def foundDateOf (ft : List Char) : List Char :=
  match searchFrom mDate1 ft with
  | some m => m
  | none =>
    match searchFrom mDate2 ft with
    | some m => m
    | none =>
      match searchFrom mDate3 ft with
      | some m => m
      | none =>
        match searchFrom mDate4 ft with
        | some m => m
        | none => []

/-- The total-keyword regex `(grand\s*total|total\s*amount|amount\s*due|balance\s*due|total)`
over the lower-cased line. -/
def mTotalKw : Matcher :=
  malt (mseq (mlits ['g','r','a','n','d']) (mseq (mstarC isSpaceC) (mlits ['t','o','t','a','l'])))
    (malt (mseq (mlits ['t','o','t','a','l']) (mseq (mstarC isSpaceC) (mlits ['a','m','o','u','n','t'])))
      (malt (mseq (mlits ['a','m','o','u','n','t']) (mseq (mstarC isSpaceC) (mlits ['d','u','e'])))
        (malt (mseq (mlits ['b','a','l','a','n','c','e']) (mseq (mstarC isSpaceC) (mlits ['d','u','e'])))
          (mlits ['t','o','t','a','l']))))

/-- `isTotalLine`: the case-insensitive keyword test. -/
def isTotalLine (l : List Char) : Bool :=
  (searchFrom mTotalKw (l.map Char.toLower)).isSome

/-- Characters kept by `replace(/^[^0-9$€£]+/, "")`. -/
def keepAfterStrip (c : Char) : Bool :=
  c.isDigit || c = '$' || c = '€' || c = '£'

/-- `m[0].replace(/^[^0-9$€£]+/, "").trim()`. -/
def stripCurrencyHead (l : List Char) : List Char :=
  trimC (l.dropWhile (fun c => !keepAfterStrip c))

/-- One Tier-1 line: on a keyword line, the currency-anchored amount
(stripped and trimmed) if any, else the bare amount if any, else nothing;
`none` on a non-keyword line. -/
def lineTotal (l : List Char) : Option (List Char) :=
  if isTotalLine l then
    match searchFrom mCurrencyAmount l with
    | some m0 => some (stripCurrencyHead m0)
    | none =>
      match searchAmountOnlyAux none l with
      | some m => some m
      | none => none
  else none

/-- Tier 1 over the reversed line list (the source scans indices from
last to first): the first line yielding an amount wins. -/
def tier1Rev : List (List Char) → List Char
  | [] => []
  | l :: rest =>
    match lineTotal l with
    | some t => t
    | none => tier1Rev rest

/-- Tier 1: bottom-up keyword scan. -/
def tier1 (lines : List (List Char)) : List Char := tier1Rev lines.reverse

/-- All matches of the amount regex with the `g` flag: repeatedly take the
leftmost match and continue after it (fuel bounds the scan; every match
consumes at least one character, so `s.length` fuel is always enough). -/
def matchAllAmountAux : Nat → List Char → List (List Char)
  | 0, _ => []
  | fuel + 1, s =>
    match (mAmount s).head? with
    | some p => p.1 :: matchAllAmountAux fuel p.2
    | none =>
      match s with
      | [] => []
      | _ :: rest => matchAllAmountAux fuel rest

/-- `line.match(/amount/g) ?? []`. -/
def matchAllAmount (s : List Char) : List (List Char) := matchAllAmountAux s.length s

/-- Digit value accumulator. -/
def natOfDigits (l : List Char) : Nat :=
  l.foldl (fun a c => a * 10 + (c.toNat - '0'.toNat)) 0

/-- The exact mathematical value of the matched amount after
`s.replace(/,/g, "")`, in integer cents: the matched shape is
`digits.dd` after comma removal, so its exact decimal value is
`centsOf s / 100`.  This is the first half of `parseFloat` per
ECMA-262 (determine the exact mathematical value of the literal);
`jsDouble` below is the second half (round it to a binary64 Number). -/
def centsOf (s : List Char) : Nat :=
  let t := s.filter (fun c => !(c = ','))
  natOfDigits (t.takeWhile (fun c => !(c = '.'))) * 100 +
    natOfDigits ((t.dropWhile (fun c => !(c = '.'))).drop 1)

/-- A JavaScript Number as it occurs in the Tier-2 scan: the initial
`maxVal = -1`, a finite non-negative double, or `Infinity`.  A finite
double arising here is `m * 2^e` with `e ≥ -59` (its value is at least
`0.01`), so `value * 2^1200` is an exact natural number, stored as the
key `k`; comparing keys is exactly comparing the doubles. -/
inductive JsNum where
  | negOne : JsNum
  | fin : Nat → JsNum
  | inf : JsNum
deriving Repr, DecidableEq

/-- The strict `<` of JavaScript on the Numbers of the Tier-2 scan. -/
def JsNum.ltB : JsNum → JsNum → Bool
  | .negOne, .negOne => false
  | .negOne, _ => true
  | .fin _, .negOne => false
  | .fin k1, .fin k2 => decide (k1 < k2)
  | .fin _, .inf => true
  | .inf, _ => false

/-- Binary normalization for rounding: shift `n / d` by powers of two
(tracking the exponent `e`) until `n / d ∈ [2^52, 2^53)`; `fuel` bounds
the loop and is always chosen large enough to reach that window (the
loop needs one step per bit of distance, at most `bits(n) + 60`, and
exits as soon as the window is reached). -/
def normAmount : Nat → Nat → Nat → Int → Nat × Nat × Int
  | 0, n, d, e => (n, d, e)
  | fuel + 1, n, d, e =>
    if n < 2 ^ 52 * d then normAmount fuel (2 * n) d (e - 1)
    else if 2 ^ 53 * d ≤ n then normAmount fuel n (2 * d) (e + 1)
    else (n, d, e)

/-- The binary64 Number with value `N / 100` (the second half of
`parseFloat`): round the exact value to 53 significant bits with
roundTiesToEven, overflowing to `Infinity` at `2^1024`, as ECMA-262
specifies for string-to-Number conversion (and as the major engines
implement for any number of digits).  The finite result `m * 2^e` is
stored as the exact key `m * 2^(e + 1200)`. -/
def jsDouble (N : Nat) : JsNum :=
  if N = 0 then .fin 0
  else
    let (n, d, e) := normAmount (N + 128) N 100 0
    let m0 := n / d
    let r := n % d
    let m := if d < 2 * r then m0 + 1
      else if 2 * r < d then m0
      else if m0 % 2 = 0 then m0 else m0 + 1
    if 0 ≤ e ∧ 2 ^ 1024 ≤ m * 2 ^ e.toNat then .inf
    else .fin (m * 2 ^ (e + 1200).toNat)

/-- `parseFloat(s.replace(/,/g, ""))`: the exact decimal value of the
matched amount, rounded to a binary64 Number. -/
def jsVal (m : List Char) : JsNum := jsDouble (centsOf m)

/-- Tier-2 fold state update (`if (!isNaN(v) && v > maxVal)`): a
strictly larger parsed Number replaces the best; ties — including
distinct strings whose values round to the same double — keep the
earlier match. -/
def tier2Step (st : JsNum × List Char) (m : List Char) : JsNum × List Char :=
  if JsNum.ltB st.1 (jsVal m) then (jsVal m, m) else st

/-- Tier-2 scan: `maxVal = -1; maxStr = ""` then the per-match update, over
all matches of all lines in order. -/
def tier2Scan (ms : List (List Char)) : JsNum × List Char :=
  ms.foldl tier2Step (JsNum.negOne, [])

/-- Tier 2 (`if (maxVal > 0)`): the kept match if its Number is
strictly positive, else `""`. -/
def tier2 (lines : List (List Char)) : List Char :=
  let r := tier2Scan (lines.flatMap matchAllAmount)
  if JsNum.ltB (JsNum.fin 0) r.1 then r.2 else []

/-- The merchant deny-list keywords, lower case, in source order. -/
def skipKeywordList : List (List Char) :=
  [['r','e','c','e','i','p','t'], ['i','n','v','o','i','c','e'], ['s','t','o','r','e'],
   ['m','a','r','k','e','t'], ['m','a','r','t'], ['s','u','p','e','r','m','a','r','k','e','t'],
   ['s','h','o','p'], ['c','a','s','h','i','e','r'], ['t','r','a','n','s','a','c','t','i','o','n'],
   ['d','a','t','e'], ['t','i','m','e'], ['s','u','b','t','o','t','a','l'], ['t','a','x'],
   ['v','a','t'], ['t','o','t','a','l'], ['a','m','o','u','n','t'], ['p','h','o','n','e'],
   ['t','e','l'], ['a','d','d','r','e','s','s'], ['p','o','s'], ['t','e','r','m','i','n','a','l'],
   ['c','a','r','d'], ['c','h','a','n','g','e'], ['c','a','s','h'], ['c','r','e','d','i','t'],
   ['d','e','b','i','t']]

/-- Is `needle` a contiguous substring of `hay`? -/
def containsSub (needle : List Char) : List Char → Bool
  | [] => needle.isEmpty
  | c :: rest => needle.isPrefixOf (c :: rest) || containsSub needle rest

/-- `skipKeywords.test(line)`: the deny-list regex is a plain alternation
of literals, so the case-insensitive test is a substring test. -/
def hasSkipKeyword (l : List Char) : Bool :=
  skipKeywordList.any (fun kw => containsSub kw (l.map Char.toLower))

/-- `line.replace(/[^A-Za-z]/g, "").length`. -/
def alphaCount (l : List Char) : Nat := (l.filter Char.isAlpha).length

/-- The sanitizer allow-set `[A-Za-z0-9 .,&'-]`. -/
def allowedC (c : Char) : Bool :=
  c.isAlpha || c.isDigit || c = ' ' || c = '.' || c = ',' || c = '&' || c = '\'' || c = '-'

/-- One pass of `replace(/\s{2,}/g, " ")`: a whitespace character whose
successor is also whitespace is dropped; the final character of a
whitespace run of length at least two (tracked by `prevSpace`) becomes a
single space; a lone whitespace character is kept as-is. -/
def collapseAux (prevSpace : Bool) : List Char → List Char
  | [] => []
  | c :: rest =>
    if isSpaceC c then
      match rest with
      | c2 :: _ =>
        if isSpaceC c2 then collapseAux true rest
        else (if prevSpace then ' ' else c) :: collapseAux false rest
      | [] => [if prevSpace then ' ' else c]
    else c :: collapseAux false rest

/-- `replace(/\s{2,}/g, " ")`: a run of two or more whitespace characters
becomes one space; a lone whitespace character is kept as-is. -/
def collapseSpaces (l : List Char) : List Char := collapseAux false l

/-- `line.replace(/[^A-Za-z0-9 .,&'-]/g, "").replace(/\s{2,}/g, " ").trim()`. -/
def sanitizeLine (l : List Char) : List Char :=
  trimC (collapseSpaces (l.filter allowedC))

/-- The merchant loop body over the (already truncated) header window. -/
def merchantScan : List (List Char) → List Char
  | [] => []
  | line :: rest =>
    if 10 * alphaCount line < 3 * line.length then merchantScan rest
    else if hasSkipKeyword line then merchantScan rest
    else if line.length < 2 then merchantScan rest
    else
      let m := sanitizeLine line
      if m.isEmpty then merchantScan rest else m

/-- The extraction result record of `parseReceiptText`. -/
structure ParseResult where
  date : String
  merchant : String
  total : String
  raw : String
deriving Repr, DecidableEq

/-- `parseReceiptText` from `script.js`: lines, joined text, date loop,
two-tier total, merchant header scan, result record. -/
def parseReceiptText (text : String) : ParseResult :=
  let lines := linesOf text.data
  let fullText := List.intercalate joinSep lines
  let foundDate := foundDateOf fullText
  let t1 := tier1 lines
  let foundTotal := if t1.isEmpty then tier2 lines else t1
  let foundMerchant := merchantScan (lines.take 12)
  { date := String.mk foundDate
    merchant := String.mk foundMerchant
    total := String.mk foundTotal
    raw := text }

/-- Is `c` one of the CSV-special characters `"` `,` newline? -/
def isCsvSpecial (c : Char) : Bool := c = '"' || c = ',' || c = '\n'

/-- `v.replace(/"/g, m)` with doubling: each `"` becomes `""`. -/
def doubleQuotes : List Char → List Char
  | [] => []
  | c :: rest => if c = '"' then '"' :: '"' :: doubleQuotes rest else c :: doubleQuotes rest

/-- `escapeCsv` from `script.js`. -/
def escapeCsv (v : String) : String :=
  if v.data.any isCsvSpecial then String.mk ('"' :: doubleQuotes v.data ++ ['"'])
  else v

/-- Collapse doubled quotes back to single quotes. -/
def halveQuotes : List Char → List Char
  | [] => []
  | '"' :: '"' :: rest => '"' :: halveQuotes rest
  | c :: rest => c :: halveQuotes rest

/-- Modelled from the spec: the field-level unescape of "a standard CSV
reader" (the reader itself is not part of the repository): a field that
starts and ends with a double quote is unwrapped and its doubled internal
quotes halved; any other field is taken verbatim. -/
def csvUnescape (v : String) : String :=
  if v.data.head? = some '"' ∧ v.data.getLast? = some '"' ∧ 2 ≤ v.data.length then
    String.mk (halveQuotes v.data.tail.dropLast)
  else v

end Receipt

namespace Receipt

/-- Membership in a sequenced matcher decomposes into the two parts. -/
theorem mem_mseq {a b : Matcher} {s : List Char} {x r : List Char} :
    (x, r) ∈ mseq a b s ↔
      ∃ x1 r1 x2, (x1, r1) ∈ a s ∧ (x2, r) ∈ b r1 ∧ x = x1 ++ x2 := by
  simp only [mseq, List.mem_flatMap, List.mem_map]
  constructor
  · rintro ⟨⟨x1, r1⟩, h1, ⟨x2, r2⟩, h2, heq⟩
    injection heq with hx hr
    subst hx; subst hr
    exact ⟨x1, r1, x2, h1, h2, rfl⟩
  · rintro ⟨x1, r1, x2, h1, h2, rfl⟩
    exact ⟨(x1, r1), h1, (x2, r), h2, rfl⟩

/-- Membership in an alternation matcher. -/
theorem mem_malt {a b : Matcher} {s : List Char} {p : List Char × List Char} :
    p ∈ malt a b s ↔ p ∈ a s ∨ p ∈ b s := by
  simp [malt]

/-- `countsDesc lo hi` contains exactly the numbers between `lo` and `hi`. -/
theorem mem_countsDesc {lo hi n : Nat} : n ∈ countsDesc lo hi ↔ lo ≤ n ∧ n ≤ hi := by
  simp only [countsDesc, List.mem_map, List.mem_range]
  constructor
  · rintro ⟨i, hlt, rfl⟩
    omega
  · rintro ⟨h1, h2⟩
    exact ⟨hi - n, by omega, by omega⟩

/-- A character matcher yields a single satisfying character. -/
theorem mem_mchar {p : Char → Bool} {s : List Char} {x r : List Char}
    (h : (x, r) ∈ mchar p s) : ∃ c, x = [c] ∧ p c = true := by
  unfold mchar at h
  cases s with
  | nil => simp at h
  | cons c rest =>
    by_cases hc : p c
    · simp only [hc, if_true, List.mem_singleton] at h
      injection h with hx hr
      exact ⟨c, hx, hc⟩
    · simp [hc] at h

/-- An exact-count matcher yields `n` satisfying characters. -/
theorem mem_mcount {p : Char → Bool} {n : Nat} {s : List Char} {x r : List Char}
    (h : (x, r) ∈ mcount p n s) : x.length = n ∧ x.all p = true := by
  unfold mcount at h
  split at h
  · next hcond =>
    simp only [List.mem_singleton] at h
    injection h with hx hr
    subst hx
    have h2 := Bool.and_eq_true_iff.mp hcond
    exact ⟨of_decide_eq_true h2.1, h2.2⟩
  · simp at h

/-- The maximal run is no longer than the list. -/
theorem runLen_le_length (p : Char → Bool) (l : List Char) : runLen p l ≤ l.length := by
  induction l with
  | nil => simp [runLen]
  | cons c rest ih =>
    unfold runLen
    by_cases hc : p c
    · simp [hc]; omega
    · simp [hc]

/-- Taking at most the maximal run yields only satisfying characters. -/
theorem take_all_of_le_runLen {p : Char → Bool} {l : List Char} {n : Nat}
    (h : n ≤ runLen p l) : (l.take n).all p = true := by
  induction l generalizing n with
  | nil => simp
  | cons c rest ih =>
    cases n with
    | zero => simp
    | succ n =>
      unfold runLen at h
      by_cases hc : p c
      · simp only [hc, if_true] at h
        simp only [List.take_succ_cons, List.all_cons, hc, Bool.true_and]
        exact ih (by omega)
      · simp [hc] at h

/-- Candidates of the take/drop comprehension used by all the greedy
single-class quantifier matchers. -/
theorem mem_takeDrop {s : List Char} {lo hi : Nat} {x r : List Char}
    (h : (x, r) ∈ (countsDesc lo hi).map (fun n => (s.take n, s.drop n))) :
    ∃ n, lo ≤ n ∧ n ≤ hi ∧ x = s.take n ∧ r = s.drop n := by
  simp only [List.mem_map] at h
  obtain ⟨n, hn, heq⟩ := h
  injection heq with hx hr
  exact ⟨n, (mem_countsDesc.mp hn).1, (mem_countsDesc.mp hn).2, hx.symm, hr.symm⟩

/-- A `p{lo,hi}` candidate: at least `lo` characters, all satisfying `p`. -/
theorem mem_mrepC {p : Char → Bool} {lo hi : Nat} {s : List Char} {x r : List Char}
    (h : (x, r) ∈ mrepC p lo hi s) :
    lo ≤ x.length ∧ x.all p = true := by
  obtain ⟨n, h1, h2, h3, _⟩ := mem_takeDrop h
  have hrun : n ≤ runLen p s := le_trans h2 (by omega)
  have hlen : x.length = n := by
    subst h3
    have := runLen_le_length p s
    simp [List.length_take]
    omega
  exact ⟨hlen ▸ h1, h3 ▸ take_all_of_le_runLen hrun⟩

/-- A `p+` candidate: at least one character, all satisfying `p`. -/
theorem mem_mplusC {p : Char → Bool} {s : List Char} {x r : List Char}
    (h : (x, r) ∈ mplusC p s) :
    1 ≤ x.length ∧ x.all p = true := by
  obtain ⟨n, h1, h2, h3, _⟩ := mem_takeDrop h
  have hlen : x.length = n := by
    subst h3
    have := runLen_le_length p s
    simp [List.length_take]
    omega
  exact ⟨hlen ▸ h1, h3 ▸ take_all_of_le_runLen h2⟩


/-- A comma-group candidate is a take of a whole number of groups. -/
theorem mem_mCommaGroups {s : List Char} {x r : List Char}
    (h : (x, r) ∈ mCommaGroups s) :
    ∃ k, k ≤ chunkCount s ∧ x = s.take (4 * k) := by
  simp only [mCommaGroups, List.mem_map] at h
  obtain ⟨k, hk, heq⟩ := h
  injection heq with hx hr
  exact ⟨k, (mem_countsDesc.mp hk).2, hx.symm⟩

/-- A positive number of comma groups ends with a digit. -/
theorem chunk_take_ends : ∀ (k : Nat) (s : List Char), 1 ≤ k → k ≤ chunkCount s →
    ∃ q d, s.take (4 * k) = q ++ [d] ∧ d.isDigit = true := by
  intro k
  induction k with
  | zero => intro s h1 _; omega
  | succ k ih =>
    intro s _ h2
    rw [chunkCount.eq_def] at h2
    split at h2
    · next a b c rest =>
      split at h2
      · next hdig =>
        have habc := Bool.and_eq_true_iff.mp hdig
        have hbc := Bool.and_eq_true_iff.mp habc.1
        by_cases hk : k = 0
        · subst hk
          exact ⟨[',', a, b], c, by simp, habc.2⟩
        · obtain ⟨q, d, hq, hd⟩ := ih rest (by omega) (by omega)
          refine ⟨',' :: a :: b :: c :: q, d, ?_, hd⟩
          have : 4 * (k + 1) = (4 * k) + 4 := by omega
          rw [this]
          simp [List.take_succ_cons, hq]
      · omega
    · omega

/-- Every candidate of the amount regex ends in digit, dot, digit, digit. -/
theorem mem_mAmount_shape {s : List Char} {x r : List Char}
    (h : (x, r) ∈ mAmount s) :
    ∃ q d a b, x = q ++ [d, '.', a, b] ∧
      d.isDigit = true ∧ a.isDigit = true ∧ b.isDigit = true := by
  have two_shape : ∀ (y : List Char), y.length = 2 → y.all Char.isDigit = true →
      ∃ a b, y = [a, b] ∧ a.isDigit = true ∧ b.isDigit = true := by
    intro y hy hall
    match y, hy with
    | [a, b], _ =>
      simp only [List.all_cons, List.all_nil, Bool.and_true, Bool.and_eq_true_iff] at hall
      exact ⟨a, b, rfl, hall.1, hall.2⟩
  have dot_shape : ∀ {y r1 : List Char} {s1 : List Char},
      (y, r1) ∈ mseq (mchar (· = '.')) (mcount Char.isDigit 2) s1 →
      ∃ a b, y = ['.', a, b] ∧ a.isDigit = true ∧ b.isDigit = true := by
    intro y r1 s1 hy
    obtain ⟨y1, rr, y2, hy1, hy2, rfl⟩ := mem_mseq.mp hy
    obtain ⟨c, rfl, hc⟩ := mem_mchar hy1
    have hc2 : c = '.' := by simpa using hc
    obtain ⟨hl, hall⟩ := mem_mcount hy2
    obtain ⟨a, b, rfl, ha, hb⟩ := two_shape y2 hl hall
    exact ⟨a, b, by simp [hc2], ha, hb⟩
  have last_digit : ∀ {y : List Char}, 1 ≤ y.length → y.all Char.isDigit = true →
      ∃ q d, y = q ++ [d] ∧ d.isDigit = true := by
    intro y hlen hall
    rcases List.eq_nil_or_concat y with rfl | ⟨q, d, rfl⟩
    · simp at hlen
    · refine ⟨q, d, by simp, ?_⟩
      have : d ∈ q.concat d := by simp
      exact (List.all_eq_true.mp hall) d this
  rcases mem_malt.mp h with hA | hB
  · obtain ⟨x1, r1, x23, h1, h23, rfl⟩ := mem_mseq.mp hA
    obtain ⟨x2, r2, x3, h2, h3, rfl⟩ := mem_mseq.mp h23
    obtain ⟨hx1len, hx1all⟩ := mem_mrepC h1
    obtain ⟨a, b, rfl, ha, hb⟩ := dot_shape h3
    obtain ⟨k, hk, hx2⟩ := mem_mCommaGroups h2
    by_cases hk0 : k = 0
    · subst hk0
      simp only [Nat.mul_zero, List.take_zero] at hx2
      subst hx2
      obtain ⟨q, d, hq, hd⟩ := last_digit hx1len hx1all
      exact ⟨q, d, a, b, by simp [hq], hd, ha, hb⟩
    · obtain ⟨q, d, hq, hd⟩ := chunk_take_ends k r1 (by omega) hk
      rw [hx2, hq]
      exact ⟨x1 ++ q, d, a, b, by simp, hd, ha, hb⟩
  · obtain ⟨x1, r1, x23, h1, h23, rfl⟩ := mem_mseq.mp hB
    obtain ⟨hx1len, hx1all⟩ := mem_mplusC h1
    obtain ⟨a, b, rfl, ha, hb⟩ := dot_shape h23
    obtain ⟨q, d, hq, hd⟩ := last_digit hx1len hx1all
    exact ⟨q, d, a, b, by simp [hq], hd, ha, hb⟩


/-- A successful `searchFrom` result is a candidate of the matcher at
some suffix of the input. -/
theorem searchFrom_some {m : Matcher} : ∀ {s x : List Char},
    searchFrom m s = some x → ∃ s1 r, (x, r) ∈ m s1 := by
  intro s
  induction s with
  | nil =>
    intro x h
    simp only [searchFrom] at h
    cases hh : (m []).head? with
    | some p =>
      rw [hh] at h
      injection h with hx
      exact ⟨[], p.2, hx ▸ List.mem_of_mem_head? hh⟩
    | none => rw [hh] at h; simp at h
  | cons c rest ih =>
    intro x h
    simp only [searchFrom] at h
    cases hh : (m (c :: rest)).head? with
    | some p =>
      rw [hh] at h
      simp only at h
      injection h with hx
      exact ⟨c :: rest, p.2, hx ▸ List.mem_of_mem_head? hh⟩
    | none =>
      rw [hh] at h
      simp only at h
      exact ih h

/-- A member of the lookaround-filtered candidate list is an amount
candidate. -/
theorem mem_amountCandsAt {prev : Option Char} {s : List Char}
    {p : List Char × List Char} (h : p ∈ amountCandsAt prev s) : p ∈ mAmount s := by
  unfold amountCandsAt at h
  split at h
  · exact (List.mem_filter.mp h).1
  · simp at h

/-- A successful bare-amount search result is an amount candidate at some
suffix of the input. -/
theorem searchAmountOnly_some : ∀ {s : List Char} {prev : Option Char} {x : List Char},
    searchAmountOnlyAux prev s = some x → ∃ s1 r, (x, r) ∈ mAmount s1 := by
  intro s
  induction s with
  | nil =>
    intro prev x h
    simp only [searchAmountOnlyAux] at h
    cases hh : (amountCandsAt prev []).head? with
    | some p =>
      rw [hh] at h
      injection h with hx
      exact ⟨[], p.2, hx ▸ mem_amountCandsAt (List.mem_of_mem_head? hh)⟩
    | none => rw [hh] at h; simp at h
  | cons c rest ih =>
    intro prev x h
    simp only [searchAmountOnlyAux] at h
    cases hh : (amountCandsAt prev (c :: rest)).head? with
    | some p =>
      rw [hh] at h
      simp only at h
      injection h with hx
      exact ⟨c :: rest, p.2, hx ▸ mem_amountCandsAt (List.mem_of_mem_head? hh)⟩
    | none =>
      rw [hh] at h
      simp only at h
      exact ih h

/-- Every match produced by the global amount scan is an amount candidate
at some suffix of the input. -/
theorem matchAllAmountAux_mem : ∀ (fuel : Nat) {s m : List Char},
    m ∈ matchAllAmountAux fuel s → ∃ s1 r, (m, r) ∈ mAmount s1 := by
  intro fuel
  induction fuel with
  | zero => intro s m h; simp [matchAllAmountAux] at h
  | succ fuel ih =>
    intro s m h
    simp only [matchAllAmountAux] at h
    cases hh : (mAmount s).head? with
    | some p =>
      rw [hh] at h
      simp only at h
      rcases List.mem_cons.mp h with rfl | htail
      · exact ⟨s, p.2, List.mem_of_mem_head? hh⟩
      · exact ih htail
    | none =>
      rw [hh] at h
      simp only at h
      cases s with
      | nil => simp at h
      | cons c rest => exact ih h

/-- Every match of the global amount scan wrapper is an amount candidate. -/
theorem matchAllAmount_mem {s m : List Char} (h : m ∈ matchAllAmount s) :
    ∃ s1 r, (m, r) ∈ mAmount s1 :=
  matchAllAmountAux_mem s.length h

/-- `dropWhile` cannot pass a kept character: the tail after an anchor
the predicate keeps survives intact. -/
theorem dropWhile_append_anchor (f : Char → Bool) (q : List Char) (d : Char)
    (t : List Char) (hd : f d = false) :
    ∃ q1, List.dropWhile f (q ++ d :: t) = q1 ++ d :: t := by
  induction q with
  | nil => exact ⟨[], by simp [List.dropWhile_cons, hd]⟩
  | cons c cq ih =>
    by_cases hc : f c
    · obtain ⟨q1, hq1⟩ := ih
      exact ⟨q1, by simp [List.dropWhile_cons, hc, hq1]⟩
    · exact ⟨c :: cq, by simp [List.dropWhile_cons, hc]⟩

/-- A digit is not whitespace. -/
theorem not_space_of_digit {c : Char} (h : c.isDigit = true) : isSpaceC c = false := by
  cases hs : isSpaceC c with
  | false => rfl
  | true =>
    exfalso
    simp only [isSpaceC, Bool.or_eq_true, decide_eq_true_eq] at hs
    rcases hs with (((((rfl | rfl) | rfl) | rfl) | rfl) | rfl) <;> simp at h

/-- Trimming a list ending in digit, dot, digit, digit keeps that tail. -/
theorem trimC_ends (q : List Char) (d a b : Char) (hd : d.isDigit = true)
    (hb : b.isDigit = true) :
    ∃ q1, trimC (q ++ [d, '.', a, b]) = q1 ++ [d, '.', a, b] := by
  obtain ⟨q1, h1⟩ :=
    dropWhile_append_anchor isSpaceC q d ['.', a, b] (not_space_of_digit hd)
  refine ⟨q1, ?_⟩
  unfold trimC
  rw [h1]
  have hrev : (q1 ++ [d, '.', a, b]).reverse = b :: a :: '.' :: d :: q1.reverse := by
    simp
  rw [hrev, List.dropWhile_cons, not_space_of_digit hb]
  simp


/-- Every amount Tier 1 returns from a line ends in digit, dot, digit,
digit (both the currency-anchored path, through strip and trim, and the
bare-amount path). -/
theorem lineTotal_shape {l t : List Char} (h : lineTotal l = some t) :
    ∃ q d a b, t = q ++ [d, '.', a, b] ∧
      d.isDigit = true ∧ a.isDigit = true ∧ b.isDigit = true := by
  unfold lineTotal at h
  split at h
  · cases hc : searchFrom mCurrencyAmount l with
    | some m0 =>
      rw [hc] at h
      simp only [Option.some.injEq] at h
      subst h
      obtain ⟨s1, r, hmem⟩ := searchFrom_some hc
      obtain ⟨x1, r1, x23, h1, h23, rfl⟩ := mem_mseq.mp hmem
      obtain ⟨x2, r2, x3, h2, h3, rfl⟩ := mem_mseq.mp h23
      obtain ⟨q, d, a, b, rfl, hd, ha, hb⟩ := mem_mAmount_shape h3
      unfold stripCurrencyHead
      have hkeep : (fun c => !keepAfterStrip c) d = false := by
        simp [keepAfterStrip, hd]
      obtain ⟨q1, hq1⟩ := dropWhile_append_anchor (fun c => !keepAfterStrip c)
        (x1 ++ (x2 ++ q)) d ['.', a, b] hkeep
      have harr : x1 ++ (x2 ++ (q ++ [d, '.', a, b])) =
          (x1 ++ (x2 ++ q)) ++ [d] ++ ['.', a, b] := by simp
      rw [harr]
      have harr2 : (x1 ++ (x2 ++ q)) ++ [d] ++ ['.', a, b] =
          (x1 ++ (x2 ++ q)) ++ d :: ['.', a, b] := by simp
      rw [harr2, hq1]
      have harr3 : q1 ++ d :: ['.', a, b] = q1 ++ [d, '.', a, b] := by simp
      rw [harr3]
      obtain ⟨q2, hq2⟩ := trimC_ends q1 d a b hd hb
      exact ⟨q2, d, a, b, hq2, hd, ha, hb⟩
    | none =>
      rw [hc] at h
      cases hb : searchAmountOnlyAux none l with
      | some m =>
        rw [hb] at h
        simp only [Option.some.injEq] at h
        subst h
        obtain ⟨s1, r, hmem⟩ := searchAmountOnly_some hb
        exact mem_mAmount_shape hmem
      | none => rw [hb] at h; simp at h
  · simp at h

/-- A total produced by the bottom-up Tier-1 scan comes from some line. -/
theorem tier1Rev_source : ∀ {ls : List (List Char)} {t : List Char},
    tier1Rev ls = t → t ≠ [] → ∃ l ∈ ls, lineTotal l = some t := by
  intro ls
  induction ls with
  | nil =>
    intro t h hne
    simp [tier1Rev] at h
    exact absurd h hne
  | cons l rest ih =>
    intro t h hne
    unfold tier1Rev at h
    cases hl : lineTotal l with
    | some t0 =>
      rw [hl] at h
      simp only at h
      exact ⟨l, List.mem_cons_self l rest, h ▸ hl⟩
    | none =>
      rw [hl] at h
      simp only at h
      obtain ⟨l1, hmem, hl1⟩ := ih h hne
      exact ⟨l1, List.mem_cons_of_mem l hmem, hl1⟩

/-- Appending a bottom line that yields an amount makes it the Tier-1
result, whatever lies above it. -/
theorem tier1_concat_yield {ls : List (List Char)} {l t : List Char}
    (h : lineTotal l = some t) : tier1 (ls ++ [l]) = t := by
  unfold tier1
  rw [List.reverse_append]
  simp only [List.reverse_singleton, List.singleton_append]
  unfold tier1Rev
  rw [h]

/-- Appending a bottom line that yields no amount (in particular a
keyword line without an amount) leaves the Tier-1 result to the lines
above it. -/
theorem tier1_concat_skip {ls : List (List Char)} {l : List Char}
    (h : lineTotal l = none) : tier1 (ls ++ [l]) = tier1 ls := by
  unfold tier1
  rw [List.reverse_append]
  simp only [List.reverse_singleton, List.singleton_append]
  conv_lhs => rw [tier1Rev]
  rw [h]

/-- `JsNum.ltB` is irreflexive. -/
theorem JsNum.ltB_irrefl (a : JsNum) : JsNum.ltB a a = false := by
  cases a <;> simp [JsNum.ltB]

/-- The `≥` reading of `JsNum.ltB` is transitive: if `a` is not below
`b` and `b` is not below `c`, then `a` is not below `c`. -/
theorem JsNum.ltB_ge_trans {a b c : JsNum} (h1 : JsNum.ltB a b = false)
    (h2 : JsNum.ltB b c = false) : JsNum.ltB a c = false := by
  cases a <;> cases b <;> cases c <;> simp_all [JsNum.ltB] <;> omega

/-- `JsNum.ltB` is asymmetric. -/
theorem JsNum.ltB_asymm {a b : JsNum} (h : JsNum.ltB a b = true) :
    JsNum.ltB b a = false := by
  cases a <;> cases b <;> simp_all [JsNum.ltB] <;> omega

/-- Strictly below something that is not below `c` is strictly below `c`. -/
theorem JsNum.ltB_lt_of_ge {a b c : JsNum} (h1 : JsNum.ltB a b = true)
    (h2 : JsNum.ltB c b = false) : JsNum.ltB a c = true := by
  cases a <;> cases b <;> cases c <;> simp_all [JsNum.ltB] <;> omega

/-- `jsDouble` never produces the initial sentinel `-1`. -/
theorem jsDouble_ne_negOne (N : Nat) : jsDouble N ≠ JsNum.negOne := by
  unfold jsDouble
  split
  · simp
  · split
    dsimp only
    repeat' split
    all_goals simp

/-- The initial `-1` is strictly below every parsed amount Number. -/
theorem ltB_negOne_jsVal (m : List Char) :
    JsNum.ltB JsNum.negOne (jsVal m) = true := by
  unfold jsVal
  cases h : jsDouble (centsOf m) with
  | negOne => exact absurd h (jsDouble_ne_negOne _)
  | fin k => rfl
  | inf => rfl

/-- The running Tier-2 maximum never decreases under one step. -/
theorem tier2Step_fst_le (st : JsNum × List Char) (m : List Char) :
    JsNum.ltB (tier2Step st m).1 st.1 = false := by
  unfold tier2Step
  split
  · next hlt => exact JsNum.ltB_asymm hlt
  · exact JsNum.ltB_irrefl _

/-- The initial value bounds the Tier-2 fold result from below. -/
theorem tier2_foldl_fst_le : ∀ (ms : List (List Char)) (init : JsNum × List Char),
    JsNum.ltB (ms.foldl tier2Step init).1 init.1 = false := by
  intro ms
  induction ms with
  | nil => intro init; simp [JsNum.ltB_irrefl]
  | cons m rest ih =>
    intro init
    simp only [List.foldl_cons]
    exact JsNum.ltB_ge_trans (ih (tier2Step init m)) (tier2Step_fst_le init m)

/-- Every scanned amount bounds the Tier-2 fold result from below. -/
theorem tier2_foldl_mem_le : ∀ (ms : List (List Char)) (init : JsNum × List Char),
    ∀ m ∈ ms, JsNum.ltB (ms.foldl tier2Step init).1 (jsVal m) = false := by
  intro ms
  induction ms with
  | nil => intro init m h; simp at h
  | cons m0 rest ih =>
    intro init m h
    simp only [List.foldl_cons]
    rcases List.mem_cons.mp h with rfl | htail
    · refine JsNum.ltB_ge_trans (tier2_foldl_fst_le rest (tier2Step init m)) ?_
      unfold tier2Step
      split
      · exact JsNum.ltB_irrefl _
      · next hge =>
        exact Bool.not_eq_true _ ▸ Bool.of_not_eq_true hge
    · exact ih (tier2Step init m0) m htail

/-- The Tier-2 fold result is the initial state or one of the scanned
amounts paired with its parsed Number. -/
theorem tier2_foldl_source : ∀ (ms : List (List Char)) (init : JsNum × List Char),
    ms.foldl tier2Step init = init ∨
      ∃ m ∈ ms, ms.foldl tier2Step init = (jsVal m, m) := by
  intro ms
  induction ms with
  | nil => intro init; exact Or.inl rfl
  | cons m0 rest ih =>
    intro init
    simp only [List.foldl_cons]
    rcases ih (tier2Step init m0) with heq | ⟨m, hmem, heq⟩
    · rw [heq]
      unfold tier2Step
      split
      · exact Or.inr ⟨m0, List.mem_cons_self m0 rest, rfl⟩
      · exact Or.inl rfl
    · exact Or.inr ⟨m, List.mem_cons_of_mem m0 hmem, heq⟩

/-- Trimming an all-whitespace list yields the empty list. -/
theorem trim_allspace {l : List Char} (h : ∀ c ∈ l, isSpaceC c = true) :
    trimC l = [] := by
  unfold trimC
  have h1 : l.dropWhile isSpaceC = [] := List.dropWhile_eq_nil_iff.mpr h
  rw [h1]
  simp

/-- All pieces of the line split of an all-whitespace input are
all-whitespace. -/
theorem splitLinesAux_allspace : ∀ (n : Nat) (s acc : List Char), s.length ≤ n →
    (∀ c ∈ s, isSpaceC c = true) → (∀ c ∈ acc, isSpaceC c = true) →
    ∀ l ∈ splitLinesAux s acc, ∀ c ∈ l, isSpaceC c = true := by
  intro n
  induction n with
  | zero =>
    intro s acc hlen hs hacc l hl c hc
    have : s = [] := List.eq_nil_of_length_eq_zero (by omega)
    subst this
    simp only [splitLinesAux, List.mem_singleton] at hl
    subst hl
    exact hacc c (List.mem_reverse.mp hc)
  | succ n ih =>
    intro s acc hlen hs hacc l hl c hc
    cases s with
    | nil =>
      simp only [splitLinesAux, List.mem_singleton] at hl
      subst hl
      exact hacc c (List.mem_reverse.mp hc)
    | cons c1 srest =>
      rw [splitLinesAux.eq_def] at hl
      simp only at hl
      by_cases h2 : c1 = '\n'
      · rw [if_pos h2] at hl
        rcases List.mem_cons.mp hl with rfl | h3
        · exact hacc c (List.mem_reverse.mp hc)
        · refine ih srest [] ?_ ?_ (by simp) l h3 c hc
          · simp only [List.length_cons] at hlen; omega
          · intro c2 hc2
            exact hs c2 (List.mem_cons_of_mem c1 hc2)
      · rw [if_neg h2] at hl
        by_cases h1 : (c1 = '\r' && headIsLF srest) = true
        · rw [if_pos h1] at hl
          cases srest with
          | nil =>
            exact absurd h1 (by simp [headIsLF])
          | cons r0 srest2 =>
            simp only at hl
            rcases List.mem_cons.mp hl with rfl | h3
            · exact hacc c (List.mem_reverse.mp hc)
            · refine ih srest2 [] ?_ ?_ (by simp) l h3 c hc
              · simp only [List.length_cons] at hlen; omega
              · intro c2 hc2
                exact hs c2 (List.mem_cons_of_mem c1 (List.mem_cons_of_mem r0 hc2))
        · rw [if_neg h1] at hl
          refine ih srest (c1 :: acc) ?_ ?_ ?_ l hl c hc
          · simp only [List.length_cons] at hlen; omega
          · intro c2 hc2
            exact hs c2 (List.mem_cons_of_mem c1 hc2)
          · intro c2 hc2
            rcases List.mem_cons.mp hc2 with rfl | h3
            · exact hs c2 (List.mem_cons_self c2 srest)
            · exact hacc c2 h3

/-- An all-whitespace input produces no lines. -/
theorem linesOf_allspace {s : List Char} (hs : ∀ c ∈ s, isSpaceC c = true) :
    linesOf s = [] := by
  unfold linesOf
  rw [List.filter_eq_nil_iff]
  intro l hl
  simp only [List.mem_map] at hl
  obtain ⟨l0, hl0, rfl⟩ := hl
  have hall : ∀ c ∈ l0, isSpaceC c = true :=
    splitLinesAux_allspace s.length s [] (le_refl _) hs (by simp) l0 hl0
  rw [trim_allspace hall]
  simp


/-- Halving undoes doubling of quotes. -/
theorem halveQuotes_doubleQuotes : ∀ (l : List Char),
    halveQuotes (doubleQuotes l) = l := by
  intro l
  induction l with
  | nil => rfl
  | cons c rest ih =>
    by_cases hc : c = '"'
    · subst hc
      simp only [doubleQuotes, if_pos rfl]
      show '"' :: halveQuotes (doubleQuotes rest) = '"' :: rest
      rw [ih]
    · rw [doubleQuotes.eq_def]
      simp only [if_neg hc]
      rw [halveQuotes.eq_def]
      split
      · next heq => simp at heq
      · next heq =>
        injection heq with h1
        exact absurd h1 hc
      · next heq =>
        injection heq with h1 h2
        subst h1
        subst h2
        rw [ih]

/-- Doubling quotes never shortens a list. -/
theorem doubleQuotes_length_ge : ∀ (l : List Char),
    l.length ≤ (doubleQuotes l).length := by
  intro l
  induction l with
  | nil => simp [doubleQuotes]
  | cons c rest ih =>
    by_cases hc : c = '"'
    · simp only [doubleQuotes, if_pos hc, List.length_cons]
      omega
    · simp only [doubleQuotes, if_neg hc, List.length_cons]
      omega


/-- C1 (counterexample): on the header lines `*** RECEIPT ***`, `12345`,
`Fresh Foods Market`, `Date: 2024-01-01`, extraction does not return
merchant `Fresh Foods Market` — it returns the empty string, because
`Fresh Foods Market` itself matches the deny-list keyword `market`. -/
theorem merchant_header_counterexample :
    (parseReceiptText "*** RECEIPT ***\n12345\nFresh Foods Market\nDate: 2024-01-01").merchant
      ≠ "Fresh Foods Market" := by decide


/-- C1 (amended): on the header lines `*** RECEIPT ***`, `12345`,
`Fresh Foods Market`, `Date: 2024-01-01`, extraction returns merchant
`""`: the boilerplate line is skipped by the deny-list, the numeric line
by the alpha-ratio filter, the date line by the alpha-ratio filter
(checked before the deny-list, which would also match it), and
`Fresh Foods Market` itself by the deny-list keyword `market`. -/
theorem merchant_header_filtered :
    (parseReceiptText "*** RECEIPT ***\n12345\nFresh Foods Market\nDate: 2024-01-01").merchant
        = "" ∧
    hasSkipKeyword ("*** RECEIPT ***".data) = true ∧
    10 * alphaCount ("12345".data) < 3 * ("12345".data).length ∧
    hasSkipKeyword ("Fresh Foods Market".data) = true ∧
    containsSub ("market".data) (("Fresh Foods Market".data).map Char.toLower) = true ∧
    10 * alphaCount ("Date: 2024-01-01".data) < 3 * ("Date: 2024-01-01".data).length ∧
    hasSkipKeyword ("Date: 2024-01-01".data) = true := by
  refine ⟨by decide, by decide, by decide, by decide, by decide, by decide, by decide⟩

/-- C2 (code evaluation at the failing input): the source joins lines
with the literal four-character separator space-backslash-n-space (the
JS string `" \\n "`), in which the backslash is not whitespace; no date
pattern contains anything that can match a backslash, so a date split
across two adjacent lines — here `12 Jan` then `2024` — is NOT matched
and extraction returns date `""`.  With an actual whitespace separator
(space, newline, space) the same content does match pattern 4. -/
theorem join_blocks_split_dates :
    (parseReceiptText "12 Jan\n2024").date = "" ∧
    fullTextOf ("12 Jan\n2024".data) = ("12 Jan \\n 2024".data) ∧
    searchFrom mDate4 ("12 Jan \n 2024".data) = some ("12 Jan \n 2024".data) := by
  refine ⟨by decide, by decide, by decide⟩

/-- C9: the date regexes are unanchored substring searches, so on input
`25/12/2024` pattern 2 (MM-DD-YYYY) already matches the substring
starting at the second character and wins: pattern 1 does not match,
pattern 2 matches `5/12/2024`, and extraction returns `5/12/2024` even
though pattern 3 (DD-MM-YYYY) would have matched the full `25/12/2024`. -/
theorem date_truncated_day_first :
    (parseReceiptText "25/12/2024").date = "5/12/2024" ∧
    searchFrom mDate1 ("25/12/2024".data) = none ∧
    searchFrom mDate2 ("25/12/2024".data) = some ("5/12/2024".data) ∧
    searchFrom mDate3 ("25/12/2024".data) = some ("25/12/2024".data) := by
  refine ⟨by decide, by decide, by decide, by decide⟩


/-- C3: Tier 1 scans lines bottom-up; the bottom-most line whose keyword
test and amount search succeed determines the total whatever lies above
it; a keyword line yielding no amount is skipped and scanning continues
upward; a non-empty Tier-1 result is the returned total; and on
`Subtotal $10.00` / `Tax $1.00` / `Total $11.00` the total is `$11.00`. -/
theorem tier1_keyword_precedence :
    (parseReceiptText "Subtotal $10.00\nTax $1.00\nTotal $11.00").total = "$11.00" ∧
    (∀ ls (l t : List Char), lineTotal l = some t → tier1 (ls ++ [l]) = t) ∧
    (∀ ls (l : List Char), isTotalLine l = true → lineTotal l = none →
      tier1 (ls ++ [l]) = tier1 ls) ∧
    (∀ text : String, (tier1 (linesOf text.data)).isEmpty = false →
      (parseReceiptText text).total.data = tier1 (linesOf text.data)) := by
  refine ⟨by decide, ?_, ?_, ?_⟩
  · intro ls l t h
    exact tier1_concat_yield h
  · intro ls l _ h
    exact tier1_concat_skip h
  · intro text h
    simp only [parseReceiptText]
    rw [h]
    simp

/-- C3 witness: the parts applied at concrete inputs. -/
theorem tier1_keyword_precedence_witness :
    tier1 ([("Subtotal $10.00").data, ("Tax $1.00").data] ++ [("Total $11.00").data]) =
        ("$11.00").data ∧
    tier1 ([("$9.00").data] ++ [("Total Items: 3").data]) = tier1 [("$9.00").data] ∧
    (parseReceiptText "Subtotal $10.00\nTax $1.00\nTotal $11.00").total.data =
      tier1 (linesOf ("Subtotal $10.00\nTax $1.00\nTotal $11.00").data) :=
  ⟨tier1_keyword_precedence.2.1 _ _ _ (by decide),
   tier1_keyword_precedence.2.2.1 _ _ (by decide) (by decide),
   tier1_keyword_precedence.2.2.2 _ (by decide)⟩

/-- C5: the four date patterns are tried in fixed order on the joined
text and the first (leftmost) match of the first succeeding pattern is
returned verbatim: a pattern-1 match always wins; if pattern 1 fails and
pattern 2 matches, the result is pattern 2's match even when pattern 3
also matches (pattern 2 wins by being tried first); pattern 3 is used
when 1 and 2 fail, pattern 4 when 1-3 fail; if all four fail the result
is the empty string. -/
theorem date_pattern_priority (text : String) :
    (∀ m : List Char,
      searchFrom mDate1 (fullTextOf text.data) = some m →
      (parseReceiptText text).date.data = m) ∧
    (∀ m mm : List Char,
      searchFrom mDate1 (fullTextOf text.data) = none →
      searchFrom mDate2 (fullTextOf text.data) = some m →
      searchFrom mDate3 (fullTextOf text.data) = some mm →
      (parseReceiptText text).date.data = m) ∧
    (∀ m : List Char,
      searchFrom mDate1 (fullTextOf text.data) = none →
      searchFrom mDate2 (fullTextOf text.data) = none →
      searchFrom mDate3 (fullTextOf text.data) = some m →
      (parseReceiptText text).date.data = m) ∧
    (∀ m : List Char,
      searchFrom mDate1 (fullTextOf text.data) = none →
      searchFrom mDate2 (fullTextOf text.data) = none →
      searchFrom mDate3 (fullTextOf text.data) = none →
      searchFrom mDate4 (fullTextOf text.data) = some m →
      (parseReceiptText text).date.data = m) ∧
    (searchFrom mDate1 (fullTextOf text.data) = none →
      searchFrom mDate2 (fullTextOf text.data) = none →
      searchFrom mDate3 (fullTextOf text.data) = none →
      searchFrom mDate4 (fullTextOf text.data) = none →
      (parseReceiptText text).date = "") := by
  refine ⟨?_, ?_, ?_, ?_, ?_⟩
  · intro m h1
    simp only [fullTextOf] at h1
    simp only [parseReceiptText, foundDateOf]
    rw [h1]
  · intro m mm h1 h2 _h3
    simp only [fullTextOf] at h1 h2
    simp only [parseReceiptText, foundDateOf]
    rw [h1, h2]
  · intro m h1 h2 h3
    simp only [fullTextOf] at h1 h2 h3
    simp only [parseReceiptText, foundDateOf]
    rw [h1, h2, h3]
  · intro m h1 h2 h3 h4
    simp only [fullTextOf] at h1 h2 h3 h4
    simp only [parseReceiptText, foundDateOf]
    rw [h1, h2, h3, h4]
  · intro h1 h2 h3 h4
    simp only [fullTextOf] at h1 h2 h3 h4
    simp only [parseReceiptText, foundDateOf]
    rw [h1, h2, h3, h4]

/-- C5 witness: on `2024-01-01` pattern 1 wins; on `31/12/2024`,
pattern 1 fails, pattern 2 matches `1/12/2024`, pattern 3 matches the
full `31/12/2024`, and the extracted date is pattern 2's match; on
`30.10.2024` only pattern 3 matches; on `3 September 2023` only
pattern 4 matches; on `no date here` all four patterns fail and the
date is empty. -/
theorem date_pattern_priority_witness :
    (parseReceiptText "2024-01-01").date.data = ("2024-01-01").data ∧
    (parseReceiptText "31/12/2024").date.data = ("1/12/2024").data ∧
    (parseReceiptText "30.10.2024").date.data = ("30.10.2024").data ∧
    (parseReceiptText "3 September 2023").date.data = ("3 September 2023").data ∧
    (parseReceiptText "no date here").date = "" :=
  ⟨(date_pattern_priority "2024-01-01").1 ("2024-01-01").data (by decide),
   (date_pattern_priority "31/12/2024").2.1 ("1/12/2024").data ("31/12/2024").data
      (by decide) (by decide) (by decide),
   (date_pattern_priority "30.10.2024").2.2.1 ("30.10.2024").data
      (by decide) (by decide) (by decide),
   (date_pattern_priority "3 September 2023").2.2.2.1 ("3 September 2023").data
      (by decide) (by decide) (by decide) (by decide),
   (date_pattern_priority "no date here").2.2.2.2 (by decide) (by decide) (by decide) (by decide)⟩

/-- C7: extraction is a pure, deterministic function of the input text:
the embedding is a mathematical function (the source reads nothing but
its argument and locals), so identical input character content yields
identical results. -/
theorem parse_pure_function (s t : String) (h : s.data = t.data) :
    parseReceiptText s = parseReceiptText t := by
  have hst : s = t := by
    cases s
    cases t
    exact congrArg String.mk h
  rw [hst]

/-- C7 witness: two calls on the same concrete input agree. -/
theorem parse_pure_function_witness :
    parseReceiptText "Degas Deli\nTotal $7.50" = parseReceiptText "Degas Deli\nTotal $7.50" :=
  parse_pure_function _ _ rfl


/-- C6: extraction is total: for every string input it returns a record
whose `raw` field is the original input, and on inputs whose characters
are all whitespace (including the empty string) the three extracted
fields are all empty.  Totality holds by construction: the embedding is
a total function, mirroring a source that can never throw. -/
theorem parse_always_record (s : String) :
    (parseReceiptText s).raw = s ∧
    ((∀ c ∈ s.data, isSpaceC c = true) →
      (parseReceiptText s).date = "" ∧ (parseReceiptText s).merchant = "" ∧
        (parseReceiptText s).total = "") := by
  constructor
  · rfl
  · intro h
    have hl : linesOf s.data = [] := linesOf_allspace h
    refine ⟨?_, ?_, ?_⟩ <;> simp only [parseReceiptText] <;> rw [hl] <;> decide

/-- C6 witness: a whitespace-only input (and every hypothesis of the
theorem) at a concrete value. -/
theorem parse_always_record_witness :
    (parseReceiptText "  \n\t ").raw = "  \n\t " ∧
    ((parseReceiptText "  \n\t ").date = "" ∧ (parseReceiptText "  \n\t ").merchant = "" ∧
      (parseReceiptText "  \n\t ").total = "") :=
  ⟨(parse_always_record "  \n\t ").1, (parse_always_record "  \n\t ").2 (by decide)⟩

/-- C8: `escapeCsv` leaves a field unchanged exactly when it contains no
comma, double quote or newline, and otherwise wraps it in double quotes
with internal quotes doubled; unescaping with a standard CSV reader
recovers every field exactly. -/
theorem escapeCsv_roundTrip (v : String) :
    csvUnescape (escapeCsv v) = v ∧
      (escapeCsv v = v ↔ v.data.any isCsvSpecial = false) := by
  by_cases h : v.data.any isCsvSpecial = true
  · have he : escapeCsv v = String.mk ('"' :: doubleQuotes v.data ++ ['"']) := by
      simp only [escapeCsv, h, if_true]
    constructor
    · rw [he]
      unfold csvUnescape
      have hhead : ('"' :: doubleQuotes v.data ++ ['"']).head? = some '"' := rfl
      have hlast : ('"' :: doubleQuotes v.data ++ ['"']).getLast? = some '"' :=
        List.getLast?_concat _
      have hlen : 2 ≤ ('"' :: doubleQuotes v.data ++ ['"']).length := by
        simp
      rw [if_pos ⟨hhead, hlast, hlen⟩]
      have htail : ('"' :: doubleQuotes v.data ++ ['"']).tail.dropLast = doubleQuotes v.data := by
        rw [show ('"' :: doubleQuotes v.data ++ ['"']).tail = doubleQuotes v.data ++ ['"'] from rfl]
        exact List.dropLast_concat
      rw [htail, halveQuotes_doubleQuotes]
    · constructor
      · intro heq
        exfalso
        have hdata := congrArg String.data (he ▸ heq)
        have hlen := congrArg List.length hdata
        simp only [List.length_cons, List.length_append, List.length_singleton] at hlen
        have := doubleQuotes_length_ge v.data
        omega
      · intro hfalse
        rw [h] at hfalse
        exact absurd hfalse (by simp)
  · have hfalse : v.data.any isCsvSpecial = false := by
      cases hx : v.data.any isCsvSpecial
      · rfl
      · exact absurd hx h
    have he : escapeCsv v = v := by
      simp [escapeCsv, hfalse]
    refine ⟨?_, by simp [he, hfalse]⟩
    rw [he]
    unfold csvUnescape
    rw [if_neg ?_]
    intro ⟨hhead, _⟩
    have hquote : '"' ∈ v.data := by
      cases hd : v.data with
      | nil => rw [hd] at hhead; simp at hhead
      | cons c rest =>
        rw [hd] at hhead
        simp only [List.head?_cons, Option.some.injEq] at hhead
        rw [hhead]
        exact List.mem_cons_self ..
    have : v.data.any isCsvSpecial = true :=
      List.any_eq_true.mpr ⟨'"', hquote, by simp [isCsvSpecial]⟩
    rw [this] at hfalse
    exact absurd hfalse (by simp)


/-- When Tier 1 found nothing, the returned total is Tier 2's result. -/
theorem total_of_tier1_empty {text : String}
    (h1 : tier1 (linesOf text.data) = []) :
    (parseReceiptText text).total = String.mk (tier2 (linesOf text.data)) := by
  simp only [parseReceiptText]
  rw [h1]
  simp

/-- C4: when Tier 1 finds no total, the Total Extractor returns the
original string form of the maximum-valued amount-shaped substring over
all lines — parsed exactly as JavaScript does, `parseFloat` with
thousands separators stripped, compared as binary64 Numbers — and the
empty string when no amount exists anywhere or no parsed value is
strictly positive.  Ties between distinct strings rounding to the same
double keep the earlier match, as the source's `v > maxVal` does. -/
theorem tier2_fallback_max (text : String)
    (h1 : tier1 (linesOf text.data) = []) :
    ((∀ m ∈ (linesOf text.data).flatMap matchAllAmount,
        JsNum.ltB (JsNum.fin 0) (jsVal m) = false) →
      (parseReceiptText text).total = "") ∧
    (∀ m0 ∈ (linesOf text.data).flatMap matchAllAmount,
      JsNum.ltB (JsNum.fin 0) (jsVal m0) = true →
      (parseReceiptText text).total.data ∈ (linesOf text.data).flatMap matchAllAmount ∧
      ∀ m ∈ (linesOf text.data).flatMap matchAllAmount,
        JsNum.ltB (jsVal ((parseReceiptText text).total.data)) (jsVal m) = false) := by
  have htot := total_of_tier1_empty h1
  constructor
  · intro hzero
    rw [htot]
    unfold tier2 tier2Scan
    rcases tier2_foldl_source ((linesOf text.data).flatMap matchAllAmount)
      (JsNum.negOne, []) with hsrc | ⟨m, hmem, hsrc⟩
    · rw [hsrc]
      simp [JsNum.ltB]
    · rw [hsrc]
      have hz := hzero m hmem
      simp [hz]
  · intro m0 hm0 hpos
    have hub : JsNum.ltB
        (((linesOf text.data).flatMap matchAllAmount).foldl tier2Step
          (JsNum.negOne, [])).1 (jsVal m0) = false :=
      tier2_foldl_mem_le _ _ m0 hm0
    rcases tier2_foldl_source ((linesOf text.data).flatMap matchAllAmount)
      (JsNum.negOne, []) with hsrc | ⟨m, hmem, hsrc⟩
    · rw [hsrc] at hub
      simp only at hub
      exact absurd hub (by simp [ltB_negOne_jsVal m0])
    · rw [hsrc] at hub
      simp only at hub
      have hposm : JsNum.ltB (JsNum.fin 0) (jsVal m) = true :=
        JsNum.ltB_lt_of_ge hpos hub
      have ht2 : tier2 (linesOf text.data) = m := by
        unfold tier2 tier2Scan
        rw [hsrc]
        simp only [hposm, if_true]
      rw [htot, ht2]
      refine ⟨hmem, ?_⟩
      intro m2 hm2
      have hle := tier2_foldl_mem_le ((linesOf text.data).flatMap matchAllAmount)
        (JsNum.negOne, []) m2 hm2
      rw [hsrc] at hle
      simp only at hle
      exact hle

set_option maxRecDepth 8192 in
/-- C4 witness: on lines `$4.50`, `$22.10`, `$3.00` with no keyword
line, Tier 1 is empty and the returned total is `22.10`, a member of the
matched amounts whose parsed Number no other match exceeds. -/
theorem tier2_fallback_max_witness :
    tier1 (linesOf ("$4.50\n$22.10\n$3.00").data) = [] ∧
    (parseReceiptText "$4.50\n$22.10\n$3.00").total = "22.10" ∧
    ((parseReceiptText "$4.50\n$22.10\n$3.00").total.data ∈
        (linesOf ("$4.50\n$22.10\n$3.00").data).flatMap matchAllAmount ∧
      ∀ m ∈ (linesOf ("$4.50\n$22.10\n$3.00").data).flatMap matchAllAmount,
        JsNum.ltB (jsVal ((parseReceiptText "$4.50\n$22.10\n$3.00").total.data))
          (jsVal m) = false) :=
  ⟨by decide, by decide,
   (tier2_fallback_max "$4.50\n$22.10\n$3.00" (by decide)).2 (("22.10").data)
     (by decide) (by decide)⟩

/-- C10: every non-empty total returned by extraction — Tier 1
currency-anchored, Tier 1 bare-amount, or Tier 2 fallback — ends with a
decimal point followed by exactly two digits. -/
theorem total_two_decimals (s : String)
    (h : (parseReceiptText s).total ≠ "") :
    ∃ (q : List Char) (a b : Char), (parseReceiptText s).total.data = q ++ ['.', a, b] ∧
      a.isDigit = true ∧ b.isDigit = true := by
  have htot : (parseReceiptText s).total.data =
      (if (tier1 (linesOf s.data)).isEmpty then tier2 (linesOf s.data)
        else tier1 (linesOf s.data)) := by
    simp only [parseReceiptText]
  by_cases he : (tier1 (linesOf s.data)).isEmpty
  · have h2 : tier2 (linesOf s.data) ≠ [] := by
      intro hx
      apply h
      have : (parseReceiptText s).total.data = [] := by rw [htot, if_pos he, hx]
      cases htt : (parseReceiptText s).total
      rw [htt] at this
      simp only at this
      rw [this]
    rcases tier2_foldl_source ((linesOf s.data).flatMap matchAllAmount)
      (JsNum.negOne, []) with hsrc | ⟨m, hmem, hsrc⟩
    · exfalso
      apply h2
      unfold tier2 tier2Scan
      rw [hsrc]
      simp [JsNum.ltB]
    · by_cases hp : JsNum.ltB (JsNum.fin 0) (jsVal m) = true
      · have ht2 : tier2 (linesOf s.data) = m := by
          unfold tier2 tier2Scan
          rw [hsrc]
          simp only [hp, if_true]
        obtain ⟨line, _, hline⟩ := List.mem_flatMap.mp hmem
        obtain ⟨s1, r1, hmm⟩ := matchAllAmount_mem hline
        obtain ⟨q, d, a, b, hsh, _, ha, hb⟩ := mem_mAmount_shape hmm
        refine ⟨q ++ [d], a, b, ?_, ha, hb⟩
        rw [htot, if_pos he, ht2, hsh]
        simp
      · exfalso
        apply h2
        unfold tier2 tier2Scan
        rw [hsrc]
        simp [Bool.of_not_eq_true hp]
  · have hne : tier1 (linesOf s.data) ≠ [] := by
      intro hx
      rw [hx] at he
      exact he (by simp)
    have hsrc1 : tier1Rev (linesOf s.data).reverse = tier1 (linesOf s.data) := rfl
    obtain ⟨l, _, hl⟩ := tier1Rev_source hsrc1 hne
    obtain ⟨q, d, a, b, hsh, _, ha, hb⟩ := lineTotal_shape hl
    refine ⟨q ++ [d], a, b, ?_, ha, hb⟩
    rw [htot, if_neg he, hsh]
    simp

set_option maxRecDepth 8192 in
/-- C10 witness: a non-empty extracted total at a concrete input. -/
theorem total_two_decimals_witness :
    (parseReceiptText "Lunch 9.99").total ≠ "" ∧
    ∃ (q : List Char) (a b : Char), (parseReceiptText "Lunch 9.99").total.data = q ++ ['.', a, b] ∧
      a.isDigit = true ∧ b.isDigit = true :=
  ⟨by decide, total_two_decimals "Lunch 9.99" (by decide)⟩

end Receipt
